import Mathlib

/-!
Verification of the pdf-editor-agent repository.

Shallow embedding of the agent orchestration core and the PDF tool layer:
  * the LLM provider dispatch (`callLLM` in `llmService.ts`),
  * the Protocol-A (Claude) outbound message conversion and inbound parsing
    (`callClaude` in `llmService.ts`),
  * the page-range tools (`split_pdf`, `move_pages` in
    `server/services/pdfMcpTools.ts`, and `splitPDF`, `movePages` in
    the `pdfOperations` service),
  * the whitespace search core (`find_whitespace` in
    `server/services/pdfMcpTools.ts`),
  * the agent loop (`runPdfAgent` in the pdf-agent service).

JavaScript numbers appearing as page indices and pixel counts are exact
integers in all embedded code paths and are modelled as `Int`/`Nat`;
normalized positions and inch coordinates are exact rationals here
(the source computes them with floating point, but every claim checked
below is insensitive to rounding: it only uses ordering and exact
recovery of integer pixel coordinates).
-/

/-- Structured JSON-like value: the payload type of tool-call inputs.
The agent core never inspects these payloads; they are carried through
translation layers as structured values. -/
inductive Json where
  | null : Json
  | bool (b : Bool) : Json
  | num (q : ℚ) : Json
  | str (s : String) : Json
  | arr (elems : List Json) : Json
  | obj (fields : List (String × Json)) : Json
deriving Repr

/-- Message roles of the provider-agnostic `LLMMessage` type in `llmService.ts`. -/
inductive Role where
  | system | user | assistant | tool
deriving DecidableEq, Repr

/-- `LLMToolCall` from `llmService.ts`: id, tool name, structured input. -/
structure LLMToolCall where
  id : String
  name : String
  input : Json
deriving Repr

/-- `LLMMessage` from `llmService.ts`. -/
structure LLMMessage where
  role : Role
  content : String
  tool_call_id : Option String := none
  name : Option String := none
  tool_calls : Option (List LLMToolCall) := none
deriving Repr

/-- `LLMTool` from `llmService.ts` (the schema is only forwarded to the
provider, never interpreted; it is kept as an opaque `Json`). -/
structure LLMTool where
  name : String
  description : String
  input_schema : Json
deriving Repr

/-- `LLMResponse` from `llmService.ts`. -/
structure LLMResponse where
  content : String
  toolCalls : Option (List LLMToolCall) := none
  stopReason : String
deriving Repr

/-- The two providers of `LLMConfig.provider`. -/
inductive Provider where
  | claude | manus
deriving DecidableEq, Repr

/-- `LLMConfig` from `llmService.ts`. -/
structure LLMConfig where
  provider : Provider
  anthropicApiKey : Option String := none
  model : Option String := none
deriving Repr

/-- JavaScript truthiness of an optional string (`undefined` and `""` are
falsy), as used by `config.anthropicApiKey` in the `callLLM` dispatch. -/
def jsTruthy : Option String → Bool
  | some s => !(s == "")
  | none => false

/-- `callLLM` from `llmService.ts`, lines 66-76.  The two backends
(`callClaude`, `callManus`) perform network calls; they are passed in as
the functions the dispatch chooses between, exactly mirroring
`if (config.provider === 'claude' && config.anthropicApiKey) { callClaude }
else { callManus }`. -/
def callLLM
    (claudeBackend manusBackend :
      List LLMMessage → List LLMTool → LLMConfig → Except String LLMResponse)
    (messages : List LLMMessage) (tools : List LLMTool) (config : LLMConfig) :
    Except String LLMResponse :=
  if config.provider = Provider.claude ∧ jsTruthy config.anthropicApiKey then
    claudeBackend messages tools config
  else
    manusBackend messages tools config

/-! ### Page-range tools

Pages of a source document with `pageCount` pages are identified by their
0-based index.  `copyPages` models `PDFDocument.copyPages` of the pdf-lib
library used by the source: for each requested index it reads
`srcPages[index]` and dereferences the page object, so any index outside
`[0, pageCount)` throws (`undefined` has no `.ref`).  In-range requests
return the pages in the requested order. -/

/-- Model of pdf-lib `PDFDocument.copyPages`: succeeds with the requested
page indices iff every index is in range, otherwise throws. -/
def copyPages (pageCount : ℕ) (indices : List ℤ) : Except String (List ℤ) :=
  if indices.all (fun i => decide (0 ≤ i ∧ i < (pageCount : ℤ))) then
    Except.ok indices
  else
    Except.error "page index out of range"

/-- One entry of `SplitPdfInput.pageRanges` (`end` is a Lean keyword, the
field is spelled `endPage`). -/
structure PageRange where
  start : ℤ
  endPage : ℤ
deriving Repr

/-- JavaScript `Array.from({length: n}, (_, i) => f i)`: `n` is coerced
with ToLength, so negative lengths yield the empty array. -/
def jsArrayFrom (n : ℤ) (f : ℕ → ℤ) : List ℤ :=
  (List.range n.toNat).map f

/-- `split_pdf` from `server/services/pdfMcpTools.ts`, lines 189-223
(page-manipulation core; storage upload and id minting elided).  Each range
builds `Array.from({length: end - start + 1}, (_, i) => start - 1 + i)` and
passes it to `copyPages` without validating or clamping; a throw from
`copyPages` aborts the whole tool call. -/
def split_pdf (pageCount : ℕ) (pageRanges : List PageRange) :
    Except String (List (List ℤ)) :=
  pageRanges.foldlM
    (fun acc range => do
      let indices := jsArrayFrom (range.endPage - range.start + 1)
        (fun i => range.start - 1 + (i : ℤ))
      let pages ← copyPages pageCount indices
      pure (acc ++ [pages]))
    []

/-- `move_pages` from `server/services/pdfMcpTools.ts`, lines 257-278
(page-manipulation core): `copyPages(pdfDoc, input.pageOrder.map(n => n - 1))`
with no filtering of out-of-range indices. -/
def move_pages (pageCount : ℕ) (pageOrder : List ℤ) : Except String (List ℤ) :=
  copyPages pageCount (pageOrder.map (fun n => n - 1))

/-- `splitPDF` from the `pdfOperations` service: validates `start < 1`,
`end < start` and `start > totalPages` as thrown errors, then clamps
`end` with `Math.min(end, totalPages)` before copying. -/
def splitPDF (totalPages : ℕ) (pageRanges : List PageRange) :
    Except String (List (List ℤ)) :=
  pageRanges.foldlM
    (fun acc range => do
      if range.start < 1 then
        throw s!"Invalid start page {range.start}: must be >= 1"
      else if range.endPage < range.start then
        throw s!"Invalid range: end ({range.endPage}) < start ({range.start})"
      else if range.start > (totalPages : ℤ) then
        throw s!"Start page {range.start} exceeds document length ({totalPages} pages)"
      else
        let actualEnd := min range.endPage (totalPages : ℤ)
        let indices := jsArrayFrom (actualEnd - range.start + 1)
          (fun i => range.start - 1 + (i : ℤ))
        let pages ← copyPages totalPages indices
        pure (acc ++ [pages]))
    []

/-- `movePages` from the `pdfOperations` service: converts the 1-indexed
order to 0-indexed and drops indices outside `[0, totalPages)` before
copying. -/
def movePages (totalPages : ℕ) (pageOrder : List ℤ) : Except String (List ℤ) :=
  copyPages totalPages
    ((pageOrder.map (fun n => n - 1)).filter
      (fun idx => decide (0 ≤ idx ∧ idx < (totalPages : ℤ))))

/-- Whether an `Except` result is a success. -/
def exceptOk {ε α : Type} : Except ε α → Bool
  | Except.ok _ => true
  | Except.error _ => false

/-! ### Protocol A (Claude) message conversion — `callClaude`, `llmService.ts`

Outbound: lines 87-165 filter system messages out, then walk the
conversation, grouping consecutive tool-role messages into a single
user-role wire message of `tool_result` blocks, embedding assistant tool
calls as `tool_use` blocks, and passing other messages through as plain
strings.  Inbound: lines 176-189 fold the reply's content blocks back into
concatenated text plus a list of `LLMToolCall`s. -/

/-- Anthropic content block (`TextBlockParam`, `ToolUseBlockParam`,
`ToolResultBlockParam`). -/
inductive ABlock where
  | text (text : String) : ABlock
  | tool_use (id : String) (name : String) (input : Json) : ABlock
  | tool_result (tool_use_id : String) (content : String) : ABlock
deriving Repr

/-- Roles available on the Anthropic wire format (`MessageParam.role`). -/
inductive ARole where
  | user | assistant
deriving DecidableEq, Repr

/-- Content of an Anthropic wire message: a plain string or content blocks. -/
inductive AContent where
  | str (s : String) : AContent
  | blocks (blocks : List ABlock) : AContent
deriving Repr

/-- Anthropic wire message (`Anthropic.MessageParam`). -/
structure AMessage where
  role : ARole
  content : AContent
deriving Repr

/-- One tool-role message as a `tool_result` block:
`tool_use_id: toolMsg.tool_call_id || 'unknown'`. -/
def toResultBlock (m : LLMMessage) : ABlock :=
  ABlock.tool_result (m.tool_call_id.getD "unknown") m.content

/-- Content blocks of an assistant message that carries tool calls
(lines 128-144): a text block when the content is truthy, then one
`tool_use` block per call, in order. -/
def assistantContentBlocks (m : LLMMessage) : List ABlock :=
  (if m.content = "" then [] else [ABlock.text m.content]) ++
    (m.tool_calls.getD []).map (fun tc => ABlock.tool_use tc.id tc.name tc.input)

/-- Conversion of one non-tool message (the assistant and fall-through user
cases of the loop body). -/
def convertMsg (m : LLMMessage) : AMessage :=
  if m.role = Role.assistant then
    match m.tool_calls with
    | some tcs =>
      if tcs.length > 0 then
        ⟨ARole.assistant, AContent.blocks (assistantContentBlocks m)⟩
      else
        ⟨ARole.assistant, AContent.str m.content⟩
    | none => ⟨ARole.assistant, AContent.str m.content⟩
  else
    ⟨ARole.user, AContent.str m.content⟩

/-- The conversion walk (lines 95-165).  The second argument is the group
of `tool_result` blocks collected from the consecutive tool-role messages
currently being coalesced (`none` when not inside a group); a group is
flushed as a single user-role message when a non-tool message or the end of
the conversation is reached. -/
def convertWalk : List LLMMessage → Option (List ABlock) → List AMessage
  | [], none => []
  | [], some group => [⟨ARole.user, AContent.blocks group⟩]
  | m :: rest, none =>
    if m.role = Role.tool then
      convertWalk rest (some [toResultBlock m])
    else
      convertMsg m :: convertWalk rest none
  | m :: rest, some group =>
    if m.role = Role.tool then
      convertWalk rest (some (group ++ [toResultBlock m]))
    else
      ⟨ARole.user, AContent.blocks group⟩ :: convertMsg m :: convertWalk rest none

/-- Outbound translation of `callClaude`: system messages are filtered out
of the transcript (they travel on the separate system channel), the rest is
converted by the walk. -/
def callClaudeMessages (messages : List LLMMessage) : List AMessage :=
  convertWalk (messages.filter (fun m => !(m.role = Role.system : Bool))) none

/-- The separate system channel of `callClaude`: system message contents
joined with a paragraph break. -/
def callClaudeSystem (messages : List LLMMessage) : String :=
  String.intercalate "\n\n"
    ((messages.filter (fun m => (m.role = Role.system : Bool))).map (fun m => m.content))

/-- Inbound parsing of a Protocol-A reply's content blocks (lines 176-189):
text blocks concatenate, `tool_use` blocks become `LLMToolCall`s in order. -/
def parseAnthropicBlocks : List ABlock → String × List LLMToolCall
  | [] => ("", [])
  | b :: rest =>
    let r := parseAnthropicBlocks rest
    match b with
    | ABlock.text t => (t ++ r.1, r.2)
    | ABlock.tool_use id name input => (r.1, ⟨id, name, input⟩ :: r.2)
    | ABlock.tool_result _ _ => r

/-! ### Whitespace search core — `find_whitespace`, `server/services/pdfMcpTools.ts`

The tool rasterizes the requested page to a grayscale pixel buffer
(`data`, row-major, origin top-left) and then runs a pure scan
(lines 497-589).  The scan is embedded here with the enclosing scope's
values (`data`, `width`, `height`, `minWidthPx`, `minHeightPx`, the
margin-exclusion band, `threshold`, `dpi`, `prefer`) as parameters; the
tool instantiates `dpi = 150`, `threshold = 250` and a margin of
`Math.floor(0.5 * dpi) = 75` pixels.  A pixel read `data[y * width + x]`
is modelled as `data y x`. -/

/-- Position preference of `FindWhitespaceInput.prefer`. -/
inductive Prefer where
  | bottomRight | bottomLeft | topRight | topLeft | bottom | top | any
deriving DecidableEq, Repr

/-- Binary clear classification of one pixel
(`data[y * width + x] >= threshold ? 1 : 0`). -/
def isWhite (data : ℕ → ℕ → ℕ) (threshold : ℕ) (y x : ℕ) : ℤ :=
  if threshold ≤ data y x then 1 else 0

/-- One row of the integral table (lines 498-505): entry `x+1` of row `y+1`
is `isWhite + integral[y][x+1] + integral[y+1][x] - integral[y][x]`.
`prevRow` is row `y` and `rowIdx` is `y`. -/
def integralRow (data : ℕ → ℕ → ℕ) (threshold : ℕ) (prevRow : ℕ → ℤ)
    (rowIdx : ℕ) : ℕ → ℤ
  | 0 => 0
  | x + 1 =>
    isWhite data threshold rowIdx x + prevRow (x + 1) +
      integralRow data threshold prevRow rowIdx x - prevRow x

/-- The integral table: `integralFun data threshold y x` is
`integral[y][x]` of the source (row 0 and column 0 are zero). -/
def integralFun (data : ℕ → ℕ → ℕ) (threshold : ℕ) : ℕ → ℕ → ℤ
  | 0 => fun _ => 0
  | y + 1 => integralRow data threshold (integralFun data threshold y) y

/-- `regionIsClear` (lines 508-512): the whole rectangle
`[x1, x2) × [y1, y2)` is clear iff the integral-table count equals the
pixel count of the rectangle. -/
def regionIsClear (data : ℕ → ℕ → ℕ) (threshold : ℕ)
    (x1 y1 x2 y2 : ℕ) : Bool :=
  decide (integralFun data threshold y2 x2 - integralFun data threshold y1 x2 -
      integralFun data threshold y2 x1 + integralFun data threshold y1 x1 =
    ((x2 : ℤ) - (x1 : ℤ)) * ((y2 : ℤ) - (y1 : ℤ)))

/-- Step size of the sliding window:
`Math.max(1, Math.floor(minPx / 4))`. -/
def stepOf (minPx : ℕ) : ℕ := max 1 (minPx / 4)

/-- Values visited by `for (v = lo; v <= bound; v += step)` for a positive
step (the bound may be negative, in which case the loop body never runs). -/
def loopPositions (lo : ℕ) (bound : ℤ) (step : ℕ) : List ℕ :=
  if bound < (lo : ℤ) then []
  else (List.range ((bound - (lo : ℤ)).toNat / step + 1)).map
    (fun k => lo + k * step)

/-- One whitespace candidate of the scan: window origin in raster pixels
plus its preference score. -/
structure Candidate where
  x : ℕ
  y : ℕ
  score : ℚ
deriving DecidableEq, Repr

/-- Preference score of a window at `(x, y)` (lines 525-551): normalized
position over `Math.max(1, width - minWidthPx)` / `Math.max(1, height -
minHeightPx)`, then the documented directional formula. -/
def scoreOf (prefer : Prefer) (width height minWidthPx minHeightPx x y : ℕ) : ℚ :=
  let nx : ℚ := (x : ℚ) / ((max 1 ((width : ℤ) - (minWidthPx : ℤ))) : ℤ)
  let ny : ℚ := (y : ℚ) / ((max 1 ((height : ℤ) - (minHeightPx : ℤ))) : ℤ)
  match prefer with
  | Prefer.bottomRight => nx + ny
  | Prefer.bottomLeft => (1 - nx) + ny
  | Prefer.topRight => nx + (1 - ny)
  | Prefer.topLeft => (1 - nx) + (1 - ny)
  | Prefer.bottom => ny
  | Prefer.top => 1 - ny
  | Prefer.any => 0

/-- The candidate scan (lines 514-556): slide the window over the raster
minus the margin band; every fully clear window becomes a candidate. -/
def scanCandidates (data : ℕ → ℕ → ℕ) (width height minWidthPx minHeightPx
    marginPx threshold : ℕ) (prefer : Prefer) : List Candidate :=
  (loopPositions marginPx ((height : ℤ) - (minHeightPx : ℤ) - (marginPx : ℤ))
      (stepOf minHeightPx)).flatMap
    (fun y =>
      (loopPositions marginPx ((width : ℤ) - (minWidthPx : ℤ) - (marginPx : ℤ))
          (stepOf minWidthPx)).filterMap
        (fun x =>
          if regionIsClear data threshold x y (x + minWidthPx) (y + minHeightPx) then
            some ⟨x, y, scoreOf prefer width height minWidthPx minHeightPx x y⟩
          else none))

/-- Insertion step of the score sort: a candidate is placed before the
first candidate of strictly smaller score (descending order; the JS
comparator is `(a, b) => b.score - a.score`). -/
def insertByScore (c : Candidate) : List Candidate → List Candidate
  | [] => [c]
  | d :: rest =>
    if d.score < c.score then c :: d :: rest else d :: insertByScore c rest

/-- The sort of `candidates.sort((a, b) => b.score - a.score)`: descending
by score. -/
def sortByScoreDesc : List Candidate → List Candidate
  | [] => []
  | c :: rest => insertByScore c (sortByScoreDesc rest)

/-- One returned region (lines 562-571): rank plus physical coordinates;
the raster origin is converted to PDF bottom-left coordinates by
`yInches = (height - y - minHeightPx) / dpi`. -/
structure WRegion where
  rank : ℕ
  xInches : ℚ
  yInches : ℚ
  xPoints : ℚ
  yPoints : ℚ
  widthInches : ℚ
  heightInches : ℚ
deriving DecidableEq, Repr

/-- Region built from a candidate (`candidates.slice(0, 5).map((c, i) => ...)`). -/
def mkRegion (height minHeightPx dpi : ℕ) (widthInches heightInches : ℚ)
    (rank : ℕ) (c : Candidate) : WRegion :=
  { rank := rank
    xInches := (c.x : ℚ) / (dpi : ℚ)
    yInches := ((height : ℚ) - (c.y : ℚ) - (minHeightPx : ℚ)) / (dpi : ℚ)
    xPoints := (c.x : ℚ) / (dpi : ℚ) * 72
    yPoints := ((height : ℚ) - (c.y : ℚ) - (minHeightPx : ℚ)) / (dpi : ℚ) * 72
    widthInches := widthInches
    heightInches := heightInches }

/-- Ranked regions from the top candidates, ranks starting at 1. -/
def rankRegions (height minHeightPx dpi : ℕ) (widthInches heightInches : ℚ) :
    ℕ → List Candidate → List WRegion
  | _, [] => []
  | rank, c :: rest =>
    mkRegion height minHeightPx dpi widthInches heightInches rank c ::
      rankRegions height minHeightPx dpi widthInches heightInches (rank + 1) rest

/-- Result of the whitespace search core. -/
structure FindWhitespaceResult where
  found : Bool
  candidatesFound : ℕ
  regions : List WRegion
deriving Repr

/-- The pure core of `find_whitespace` (lines 497-589): scan, sort
descending by score, return the top 5 candidates as ranked regions and the
total candidate count. -/
def findWhitespaceCore (data : ℕ → ℕ → ℕ) (width height minWidthPx minHeightPx
    marginPx threshold dpi : ℕ) (widthInches heightInches : ℚ)
    (prefer : Prefer) : FindWhitespaceResult :=
  let candidates := scanCandidates data width height minWidthPx minHeightPx
    marginPx threshold prefer
  let sorted := sortByScoreDesc candidates
  let regions := rankRegions height minHeightPx dpi widthInches heightInches 1
    (sorted.take 5)
  { found := regions.length > 0
    candidatesFound := candidates.length
    regions := regions }

/-- JavaScript `a || b` for numeric options: `0` and `undefined` fall back. -/
def jsNumOr (a : Option ℚ) (b : ℚ) : ℚ :=
  match a with
  | some x => if x = 0 then b else x
  | none => b

/-- The `find_whitespace` tool (lines 450-594) after rasterization, with
the tool's fixed constants: input defaulting of the minimum sizes
(`input.minWidthInches || (input.minWidth ? input.minWidth / 72 : 1.5)`),
`dpi = 150`, `threshold = 250`, margin `Math.floor(0.5 * dpi) = 75`, and
pixel sizes `Math.floor(minInches * dpi)`. -/
def find_whitespace (data : ℕ → ℕ → ℕ) (width height : ℕ)
    (minWidthInches minHeightInches minWidth minHeight : Option ℚ)
    (prefer : Option Prefer) : FindWhitespaceResult :=
  let minWInches := jsNumOr minWidthInches
    (match minWidth with | some w => w / 72 | none => 3/2)
  let minHInches := jsNumOr minHeightInches
    (match minHeight with | some h => h / 72 | none => 1/2)
  let dpi : ℕ := 150
  let minWidthPx : ℕ := (Int.floor (minWInches * (dpi : ℚ))).toNat
  let minHeightPx : ℕ := (Int.floor (minHInches * (dpi : ℚ))).toNat
  let threshold : ℕ := 250
  let marginPx : ℕ := 75
  findWhitespaceCore data width height minWidthPx minHeightPx marginPx
    threshold dpi minWInches minHInches (prefer.getD Prefer.bottomRight)

/-! ### Agent loop — `runPdfAgent`

The loop (pdf-agent service, lines 713-923) drives
call-LLM / execute-tools / append-results to convergence with a hard
ceiling of 20 iterations.  Its two effectful collaborators are injected:
`script` stands for `callLLM` (a scripted provider keyed by the 1-based
round number; a thrown provider error is `Except.error`), and `exec`
stands for the tool lookup plus execution of one tool call against the
document context (a throwing tool is `Except.error`). -/

/-- One entry of a `split_pdf` result's `files` array. -/
structure SplitFile where
  id : String
  filename : String
  url : String
  pages : String
deriving Repr

/-- The fields of a tool's return value that the loop inspects
(`toolResult.id`, `toolResult.url`, `toolResult.files`, plus the payload
serialized back to the model). -/
structure ToolOutput where
  success : Bool
  message : String
  id : Option String := none
  url : Option String := none
  filename : Option String := none
  files : List SplitFile := []
deriving Repr

/-- Model of `JSON.stringify(toolResult)` for the tool-role message
content.  The exact JSON text is never inspected by the embedded code;
this renders the success flag and message. -/
def stringifyToolOutput (out : ToolOutput) : String :=
  "\x7b\"success\":" ++ (if out.success then "true" else "false") ++
    ",\"message\":\"" ++ out.message ++ "\"\x7d"

/-- Model of `JSON.stringify({ error: errorMessage })`, the content fed
back to the model for a throwing tool call. -/
def stringifyErrorContent (e : String) : String :=
  "\x7b\"error\":\"" ++ e ++ "\"\x7d"

/-- One document of the in-turn catalogue view. -/
structure Document where
  id : String
  name : String
  url : String
  docType : String
  pages : String
deriving Repr

/-- Result of one executed tool call, as recorded in `operation.result`:
the tool's return value, or `{ success: false, error }` when the tool
threw. -/
inductive OpResult where
  | ok (out : ToolOutput) : OpResult
  | err (error : String) : OpResult
deriving Repr

/-- Success flag of an operations entry. -/
def OpResult.success : OpResult → Bool
  | OpResult.ok out => out.success
  | OpResult.err _ => false

/-- One entry of the `operations` array returned by `runPdfAgent`. -/
structure Operation where
  tool : String
  input : Json
  result : OpResult
deriving Repr

/-- The loop state: the message list, the accumulated operations, the
in-turn document view, the final response, the `continueLoop` flag and the
iteration counter. -/
structure AgentState where
  messages : List LLMMessage
  operations : List Operation
  documents : List Document
  finalResponse : String
  continueLoop : Bool
  iteration : ℕ
deriving Repr

/-- The tool-role message appended for a successful tool call
(lines 859-864). -/
def toolResultMessage (tc : LLMToolCall) (out : ToolOutput) : LLMMessage :=
  { role := Role.tool
    content := stringifyToolOutput out
    tool_call_id := some tc.id
    name := some tc.name }

/-- The tool-role message appended for a throwing tool call
(lines 876-881). -/
def toolErrorMessage (tc : LLMToolCall) (e : String) : LLMMessage :=
  { role := Role.tool
    content := stringifyErrorContent e
    tool_call_id := some tc.id
    name := some tc.name }

/-- Documents appended after a successful tool call (lines 827-850): one
for a single-result tool when `toolResult.id && toolResult.url`, plus one
per `files` entry with truthy id and url. -/
def newDocuments (toolName : String) (out : ToolOutput) : List Document :=
  (if jsTruthy out.id ∧ jsTruthy out.url then
    [{ id := out.id.getD ""
       name := out.filename.getD (toolName ++ "_result.pdf")
       url := out.url.getD ""
       docType := "revised"
       pages := "unknown" }]
  else []) ++
  (out.files.filterMap (fun f =>
    if f.id ≠ "" ∧ f.url ≠ "" then
      some { id := f.id
             name := if f.filename = "" then toolName ++ "_result.pdf" else f.filename
             url := f.url
             docType := "revised"
             pages := if f.pages = "" then "unknown" else f.pages }
    else none))

/-- Sequential execution of one round's tool calls (the
`for (const toolCall of result.toolCalls)` body, lines 792-885): per call,
execute, append new documents, append a tool-role message with the
(possibly error) result, and record an operations entry; a throw is caught
per-call and never aborts the loop. -/
def processToolCalls (exec : LLMToolCall → Except String ToolOutput) :
    List LLMToolCall → AgentState → AgentState
  | [], st => st
  | tc :: rest, st =>
    match exec tc with
    | Except.ok out =>
      processToolCalls exec rest
        { st with
          documents := st.documents ++ newDocuments tc.name out
          messages := st.messages ++ [toolResultMessage tc out]
          operations := st.operations ++ [⟨tc.name, tc.input, OpResult.ok out⟩] }
    | Except.error e =>
      processToolCalls exec rest
        { st with
          messages := st.messages ++ [toolErrorMessage tc e]
          operations := st.operations ++ [⟨tc.name, tc.input, OpResult.err e⟩] }

/-- The iteration ceiling (`const maxIterations = 20`). -/
def maxIterations : ℕ := 20

/-- The canned ceiling response. -/
def limitResponse : String :=
  "I reached the maximum number of operations. Please start a new conversation."

/-- A plain assistant message carrying a final answer (lines 889-892). -/
def plainAssistant (content : String) : LLMMessage :=
  { role := Role.assistant, content := content }

/-- The assistant message appended verbatim when a reply carries tool
calls (lines 785-789). -/
def assistantWithCalls (content : String) (tcs : List LLMToolCall) : LLMMessage :=
  { role := Role.assistant, content := content, tool_calls := some tcs }

/-- One pass of the while loop (lines 775-913): `iteration++`, call the
provider, then either process the round's tool calls, or take the reply
text as the final answer, or catch a provider error with the apology
response. -/
def stepAgent (script : ℕ → Except String LLMResponse)
    (exec : LLMToolCall → Except String ToolOutput) (st : AgentState) :
    AgentState :=
  let it := st.iteration + 1
  match script it with
  | Except.error e =>
    { st with
      iteration := it
      continueLoop := false
      finalResponse := "I encountered an error: " ++ e ++ ". Please try again." }
  | Except.ok result =>
    let calls := result.toolCalls.getD []
    if calls.length > 0 then
      processToolCalls exec calls
        { st with
          iteration := it
          messages := st.messages ++ [assistantWithCalls result.content calls] }
    else
      { st with
        iteration := it
        messages := st.messages ++ [plainAssistant result.content]
        finalResponse := result.content
        continueLoop := false }

/-- The while loop `while (continueLoop && iteration < maxIterations)`.
The fuel argument only bounds the recursion depth; `maxIterations` fuel is
enough because every pass increments `iteration`. -/
def runLoop (script : ℕ → Except String LLMResponse)
    (exec : LLMToolCall → Except String ToolOutput) :
    ℕ → AgentState → AgentState
  | 0, st => st
  | fuel + 1, st =>
    if st.continueLoop ∧ st.iteration < maxIterations then
      runLoop script exec fuel (stepAgent script exec st)
    else st

/-- One turn of prior conversation history. -/
structure HistoryMessage where
  role : String
  content : String
deriving Repr

/-- The system message built from the available documents (lines 735-748). -/
def buildSystemMessage (documents : List Document) : String :=
  "You are a PDF operations assistant. You can help users manipulate PDF documents using the available tools.\n\nAvailable documents:\n" ++
  String.intercalate "\n"
    (documents.map (fun doc =>
      "- " ++ doc.id ++ ": " ++ doc.name ++ " (" ++
        (if doc.docType = "revised" then "REVISED" else "original") ++ ", " ++
        (if doc.pages = "" then "unknown" else doc.pages) ++ " pages)")) ++
  "\n\nWhen the user asks to perform an operation:\n1. Identify which tool to use\n2. Extract the necessary parameters from the user's request\n3. Call the appropriate tool\n4. Explain what you did\n\nIMPORTANT - Cleanup: Before finishing a task, use the delete_documents tool to remove any intermediate revised documents that are no longer needed. Keep only the final output documents the user requested. For example, if you split a PDF and then combined parts of it, delete the split files after combining since only the combined result is needed.\n\nIf no documents are uploaded, politely ask the user to upload a PDF first."

/-- The initial message list (lines 751-768): system message, replayed
history minus its last entry, then the current user message. -/
def initMessages (userMessage : String) (documents : List Document)
    (history : List HistoryMessage) : List LLMMessage :=
  { role := Role.system, content := buildSystemMessage documents } ::
    (history.dropLast.map (fun h =>
      { role := if h.role = "user" then Role.user else Role.assistant
        content := h.content : LLMMessage })) ++
    [{ role := Role.user, content := userMessage }]

/-- Result of one agent turn. -/
structure AgentResult where
  response : String
  operations : List Operation
deriving Repr

/-- The final loop state of `runPdfAgent`. -/
def runPdfAgentState (script : ℕ → Except String LLMResponse)
    (exec : LLMToolCall → Except String ToolOutput) (userMessage : String)
    (documents : List Document) (history : List HistoryMessage) : AgentState :=
  runLoop script exec maxIterations
    { messages := initMessages userMessage documents history
      operations := []
      documents := documents
      finalResponse := ""
      continueLoop := true
      iteration := 0 }

/-- `runPdfAgent` (lines 713-923): run the loop, overwrite the final
response with the canned limit message when the ceiling was reached
(`if (iteration >= maxIterations)`), and fall back to a generic completion
message when the response is empty
(`response: finalResponse || 'Operation completed.'`). -/
def runPdfAgent (script : ℕ → Except String LLMResponse)
    (exec : LLMToolCall → Except String ToolOutput) (userMessage : String)
    (documents : List Document) (history : List HistoryMessage) : AgentResult :=
  let st := runPdfAgentState script exec userMessage documents history
  let finalResponse :=
    if maxIterations ≤ st.iteration then limitResponse else st.finalResponse
  { response := if finalResponse = "" then "Operation completed." else finalResponse
    operations := st.operations }

/-! ### Concrete stubs and fixtures used by witnesses and counterexamples -/

/-- A Protocol-A backend stub used to observe the dispatch. -/
def claudeStub : List LLMMessage → List LLMTool → LLMConfig →
    Except String LLMResponse :=
  fun _ _ _ => Except.ok ⟨"claude-reply", none, "end_turn"⟩

/-- A Protocol-B backend stub used to observe the dispatch. -/
def manusStub : List LLMMessage → List LLMTool → LLMConfig →
    Except String LLMResponse :=
  fun _ _ _ => Except.ok ⟨"manus-reply", none, "stop"⟩

/-- Concrete two-call assistant message used by the C7 and C8 witnesses. -/
def asstTwoCalls : LLMMessage :=
  { role := Role.assistant
    content := "running two tools"
    tool_calls := some [⟨"call_1", "split_pdf", Json.str "r1"⟩,
      ⟨"call_2", "move_pages", Json.str "r2"⟩] }

/-- Concrete pair of tool-result messages answering `asstTwoCalls`. -/
def twoToolMsgs : List LLMMessage :=
  [{ role := Role.tool, content := "out1", tool_call_id := some "call_1"
     name := some "split_pdf" },
   { role := Role.tool, content := "out2", tool_call_id := some "call_2"
     name := some "move_pages" }]

/-- A provider round that issues at least one tool call
(`result.toolCalls && result.toolCalls.length > 0`). -/
def OkToolCallsRound (x : Except String LLMResponse) : Prop :=
  ∃ resp, x = Except.ok resp ∧ 0 < (resp.toolCalls.getD []).length

/-- The all-tool-calls provider stub of the C5 witness. -/
def alwaysToolScript : ℕ → Except String LLMResponse :=
  fun _ => Except.ok
    { content := ""
      toolCalls := some [⟨"call_loop", "extract_text", Json.null⟩]
      stopReason := "tool_use" }

/-- A tool executor stub that always succeeds. -/
def okExec : LLMToolCall → Except String ToolOutput :=
  fun _ => Except.ok { success := true, message := "ok" }

/-- The provider stub of the C4 witness: a final text answer on round 1. -/
def immediateAnswerScript : ℕ → Except String LLMResponse :=
  fun _ => Except.ok { content := "All done.", stopReason := "end_turn" }

/-- The provider stub of the C4 counterexample: tool calls on rounds 1-19,
then a final text answer exactly on round 20. -/
def lateAnswerScript : ℕ → Except String LLMResponse :=
  fun r =>
    if r < 20 then
      Except.ok
        { content := ""
          toolCalls := some [⟨"call_loop", "extract_text", Json.null⟩]
          stopReason := "tool_use" }
    else
      Except.ok { content := "DONE", stopReason := "end_turn" }

/-- The failing tool call of the C6 witness. -/
def badCall : LLMToolCall := ⟨"bad_call", "split_pdf", Json.null⟩

/-- The provider stub of the C6 witness: one tool call on round 1, then a
final answer. -/
def throwingRoundScript : ℕ → Except String LLMResponse :=
  fun r =>
    if r = 1 then
      Except.ok { content := "", toolCalls := some [badCall]
                  stopReason := "tool_use" }
    else
      Except.ok { content := "Recovered.", stopReason := "end_turn" }

/-- A tool executor stub that always throws. -/
def throwExec : LLMToolCall → Except String ToolOutput :=
  fun _ => Except.error "boom"

/-- An all-white raster used by the C9 witness. -/
def allWhiteRaster : ℕ → ℕ → ℕ := fun _ _ => 255

/-! ### Claims C1-C3: page-range tools and provider dispatch -/

/-- Claim C1.  The claim says `split_pdf` clamps `end` beyond the document
length and produces `min(end, N) - start + 1` pages.  On the code this
fails: for a 5-page document and range `[2, 7]` the tool passes the
unclamped indices `1..6` to `copyPages`, which throws, so the call fails
instead of producing the `min(7, 5) - 2 + 1 = 4` pages the claim predicts.
The sibling `splitPDF` implementation in the `pdfOperations` service (which
the spec describes, and which like `split_pdf` documents itself as a port
of the same `legal-pdf-tools` `split_pdf`) validates `start` and clamps
`end`, returning exactly those 4 pages. -/
theorem C1_split_end_not_clamped :
    exceptOk (split_pdf 5 [⟨2, 7⟩]) = false ∧
    splitPDF 5 [⟨2, 7⟩] = Except.ok [[1, 2, 3, 4]] ∧
    min (7 : ℤ) 5 - 2 + 1 = 4 := by
  refine ⟨by decide, by rfl, by decide⟩

/-- Claim C3.  The claim says `move_pages` silently drops out-of-range
indices, so `[3, 99, 1]` on a 5-page document yields the 2-page document
`[3, 1]`.  On the code this fails: `move_pages` maps the order to 0-based
indices `[2, 98, 0]` with no filtering and `copyPages` throws on 98, so
the call fails.  The sibling `movePages` implementation in the
`pdfOperations` service (which the spec describes) filters out-of-range
indices first and returns exactly the two pages `[3, 1]` (0-based
`[2, 0]`). -/
theorem C3_move_pages_throws_instead_of_dropping :
    exceptOk (move_pages 5 [3, 99, 1]) = false ∧
    movePages 5 [3, 99, 1] = Except.ok [2, 0] ∧
    [2, 0].map (fun i => i + 1) = ([3, 1] : List ℤ) := by
  refine ⟨by decide, by rfl, by decide⟩

/-- Claim C2, counterexample.  With provider `claude` and no Anthropic API
key, `callLLM` does not fail fast: it silently routes the call to the
Manus backend and returns its reply successfully. -/
theorem C2_counterexample_silent_fallback :
    callLLM claudeStub manusStub [] []
      { provider := Provider.claude, anthropicApiKey := none } =
      Except.ok ⟨"manus-reply", none, "stop"⟩ ∧
    exceptOk (callLLM claudeStub manusStub [] []
      { provider := Provider.claude, anthropicApiKey := none }) = true := by
  refine ⟨by rfl, by rfl⟩

/-- Claim C2, amended.  `callLLM` calls the Claude backend only when the
provider is `claude` and a non-empty Anthropic API key is present; when
the provider is `claude` but no key (or an empty key) is supplied, the
call is silently delegated to the Manus backend instead of failing
fast. -/
theorem C2_amended_dispatch (claudeB manusB : List LLMMessage → List LLMTool →
      LLMConfig → Except String LLMResponse)
    (messages : List LLMMessage) (tools : List LLMTool) (config : LLMConfig)
    (hp : config.provider = Provider.claude) :
    (jsTruthy config.anthropicApiKey = true →
      callLLM claudeB manusB messages tools config =
        claudeB messages tools config) ∧
    (jsTruthy config.anthropicApiKey = false →
      callLLM claudeB manusB messages tools config =
        manusB messages tools config) := by
  constructor
  · intro hk
    simp [callLLM, hp, hk]
  · intro hk
    simp [callLLM, hp, hk]

/-- Claim C2, witness for the amended theorem at a concrete
configuration. -/
theorem C2_amended_dispatch_witness :
    ({ provider := Provider.claude, anthropicApiKey := none : LLMConfig }.provider
        = Provider.claude) ∧
    (jsTruthy (none : Option String) = false →
      callLLM claudeStub manusStub [] []
        { provider := Provider.claude, anthropicApiKey := none } =
        manusStub [] [] { provider := Provider.claude, anthropicApiKey := none }) :=
  ⟨rfl, (C2_amended_dispatch claudeStub manusStub [] []
    { provider := Provider.claude, anthropicApiKey := none } rfl).2⟩

/-! ### Claims C7-C8: Protocol-A translation -/

/-- Flushing a run of tool-role messages: the walk converts the run
followed by a non-tool (or empty) remainder into a single user message
holding the pending blocks plus one result block per tool message. -/
theorem convertWalk_toolRun (toolMsgs post : List LLMMessage)
    (acc : List ABlock)
    (ht : ∀ m ∈ toolMsgs, m.role = Role.tool)
    (hpost : ∀ p, post.head? = some p → p.role ≠ Role.tool) :
    convertWalk (toolMsgs ++ post) (some acc) =
      ⟨ARole.user, AContent.blocks (acc ++ toolMsgs.map toResultBlock)⟩ ::
        convertWalk post none := by
  induction toolMsgs generalizing acc with
  | nil =>
    cases post with
    | nil => simp [convertWalk]
    | cons p rest =>
      have hp : p.role ≠ Role.tool := hpost p rfl
      simp [convertWalk, hp]
  | cons m rest ih =>
    have hm : m.role = Role.tool := ht m (List.mem_cons_self _ _)
    have hrest : ∀ x ∈ rest, x.role = Role.tool :=
      fun x hx => ht x (List.mem_cons_of_mem _ hx)
    have step : convertWalk ((m :: rest) ++ post) (some acc) =
        convertWalk (rest ++ post) (some (acc ++ [toResultBlock m])) := by
      simp [convertWalk, hm]
    rw [step, ih (acc ++ [toResultBlock m]) hrest]
    simp

/-- Claim C7.  When `k ≥ 1` consecutive tool-role messages answer the `k`
tool calls of the immediately preceding assistant message, outbound
Protocol-A translation coalesces them into exactly one user-role wire
message holding one `tool_result` block per tool message, in the same
relative order; the surrounding transcript converts unchanged around it
and the results are never split across several user messages. -/
theorem C7_tool_results_coalesce (pre : List LLMMessage) (asst : LLMMessage)
    (toolMsgs post : List LLMMessage) (tcs : List LLMToolCall)
    (ha : asst.role = Role.assistant)
    (hcalls : asst.tool_calls = some tcs)
    (hanswer : toolMsgs.map (fun m => m.tool_call_id) =
      tcs.map (fun tc => some tc.id))
    (hk : toolMsgs ≠ [])
    (ht : ∀ m ∈ toolMsgs, m.role = Role.tool)
    (hpost : ∀ p, post.head? = some p → p.role ≠ Role.tool) :
    convertWalk (pre ++ asst :: (toolMsgs ++ post)) none =
      convertWalk (pre ++ [asst]) none ++
        ⟨ARole.user, AContent.blocks (toolMsgs.map toResultBlock)⟩ ::
          convertWalk post none := by
  have hasst : asst.role ≠ Role.tool := by rw [ha]; intro h; cases h
  have base : ∀ (acc : Option (List ABlock)),
      convertWalk (asst :: (toolMsgs ++ post)) acc =
        convertWalk [asst] acc ++
          ⟨ARole.user, AContent.blocks (toolMsgs.map toResultBlock)⟩ ::
            convertWalk post none := by
    intro acc
    obtain ⟨m, rest, rfl⟩ : ∃ m rest, toolMsgs = m :: rest := by
      cases toolMsgs with
      | nil => exact absurd rfl hk
      | cons m rest => exact ⟨m, rest, rfl⟩
    have hm : m.role = Role.tool := ht m (List.mem_cons_self _ _)
    have hrest : ∀ x ∈ rest, x.role = Role.tool :=
      fun x hx => ht x (List.mem_cons_of_mem _ hx)
    have run := convertWalk_toolRun rest post [toResultBlock m] hrest hpost
    cases acc with
    | none =>
      simp only [convertWalk, hasst, if_neg, not_false_iff, List.cons_append]
      rw [if_pos hm]
      simp only [List.append_eq] at run ⊢
      rw [run]
      simp [convertWalk]
    | some g =>
      rw [show convertWalk (asst :: (m :: rest ++ post)) (some g) =
          ⟨ARole.user, AContent.blocks g⟩ ::
            convertMsg asst :: convertWalk (m :: rest ++ post) none by
        simp [convertWalk, hasst]]
      rw [show convertWalk (m :: rest ++ post) none =
          convertWalk (rest ++ post) (some [toResultBlock m]) by
        simp [convertWalk, hm]]
      rw [run]
      simp [convertWalk, hasst]
  have key : ∀ (pre : List LLMMessage) (acc : Option (List ABlock)),
      convertWalk (pre ++ asst :: (toolMsgs ++ post)) acc =
        convertWalk (pre ++ [asst]) acc ++
          ⟨ARole.user, AContent.blocks (toolMsgs.map toResultBlock)⟩ ::
            convertWalk post none := by
    intro pre
    induction pre with
    | nil => exact base
    | cons q pre ih =>
      intro acc
      by_cases hq : q.role = Role.tool
      · cases acc with
        | none =>
          rw [show convertWalk ((q :: pre) ++ asst :: (toolMsgs ++ post)) none =
              convertWalk (pre ++ asst :: (toolMsgs ++ post))
                (some [toResultBlock q]) by simp [convertWalk, hq]]
          rw [show convertWalk ((q :: pre) ++ [asst]) none =
              convertWalk (pre ++ [asst]) (some [toResultBlock q]) by
            simp [convertWalk, hq]]
          exact ih _
        | some g =>
          rw [show convertWalk ((q :: pre) ++ asst :: (toolMsgs ++ post))
                (some g) =
              convertWalk (pre ++ asst :: (toolMsgs ++ post))
                (some (g ++ [toResultBlock q])) by simp [convertWalk, hq]]
          rw [show convertWalk ((q :: pre) ++ [asst]) (some g) =
              convertWalk (pre ++ [asst]) (some (g ++ [toResultBlock q])) by
            simp [convertWalk, hq]]
          exact ih _
      · cases acc with
        | none =>
          rw [show convertWalk ((q :: pre) ++ asst :: (toolMsgs ++ post)) none =
              convertMsg q :: convertWalk (pre ++ asst :: (toolMsgs ++ post))
                none by simp [convertWalk, hq]]
          rw [show convertWalk ((q :: pre) ++ [asst]) none =
              convertMsg q :: convertWalk (pre ++ [asst]) none by
            simp [convertWalk, hq]]
          rw [ih none]
          simp
        | some g =>
          rw [show convertWalk ((q :: pre) ++ asst :: (toolMsgs ++ post))
                (some g) =
              ⟨ARole.user, AContent.blocks g⟩ :: convertMsg q ::
                convertWalk (pre ++ asst :: (toolMsgs ++ post)) none by
            simp [convertWalk, hq]]
          rw [show convertWalk ((q :: pre) ++ [asst]) (some g) =
              ⟨ARole.user, AContent.blocks g⟩ :: convertMsg q ::
                convertWalk (pre ++ [asst]) none by simp [convertWalk, hq]]
          rw [ih none]
          simp
  exact key pre none

/-- Parsing a run of `tool_use` blocks recovers exactly the original tool
calls with no text. -/
theorem parse_toolUses (tcs : List LLMToolCall) :
    parseAnthropicBlocks
        (tcs.map (fun tc => ABlock.tool_use tc.id tc.name tc.input)) =
      ("", tcs) := by
  induction tcs with
  | nil => rfl
  | cons tc rest ih => simp [parseAnthropicBlocks, ih]

/-- Claim C8.  Converting an assistant message that carries tool calls to
Protocol-A content blocks and parsing those blocks back yields the same
list of tool calls: same count, identical ids, names and structured input
payloads. -/
theorem C8_tool_calls_roundtrip (m : LLMMessage) (tcs : List LLMToolCall)
    (hrole : m.role = Role.assistant)
    (h : m.tool_calls = some tcs) (hne : tcs ≠ []) :
    convertMsg m =
      ⟨ARole.assistant, AContent.blocks (assistantContentBlocks m)⟩ ∧
    (parseAnthropicBlocks (assistantContentBlocks m)).2 = tcs ∧
    (parseAnthropicBlocks (assistantContentBlocks m)).2.length = tcs.length := by
  have hlen : tcs.length > 0 := List.length_pos.mpr hne
  have hparse : (parseAnthropicBlocks (assistantContentBlocks m)).2 = tcs := by
    unfold assistantContentBlocks
    rw [h]
    by_cases hc : m.content = ""
    · simp [hc, parse_toolUses]
    · simp [hc, parseAnthropicBlocks, parse_toolUses]
  refine ⟨?_, hparse, by rw [hparse]⟩
  simp [convertMsg, hrole, h, hlen]

/-- Claim C7, witness: two consecutive tool messages answering the two
calls of one assistant turn coalesce into exactly one user wire message
with two result blocks in order. -/
theorem C7_tool_results_coalesce_witness :
    asstTwoCalls.role = Role.assistant ∧
    twoToolMsgs ≠ [] ∧
    convertWalk ([] ++ asstTwoCalls :: (twoToolMsgs ++ [])) none =
      convertWalk ([] ++ [asstTwoCalls]) none ++
        ⟨ARole.user, AContent.blocks (twoToolMsgs.map toResultBlock)⟩ ::
          convertWalk [] none :=
  ⟨rfl, by simp [twoToolMsgs],
    C7_tool_results_coalesce [] asstTwoCalls twoToolMsgs []
      [⟨"call_1", "split_pdf", Json.str "r1"⟩,
        ⟨"call_2", "move_pages", Json.str "r2"⟩]
      rfl rfl rfl (by simp [twoToolMsgs])
      (by intro x hx; fin_cases hx <;> rfl)
      (by intro p hp; simp at hp)⟩

/-- Claim C8, witness: the round trip at the concrete two-call assistant
message. -/
theorem C8_tool_calls_roundtrip_witness :
    asstTwoCalls.role = Role.assistant ∧
    asstTwoCalls.tool_calls = some [⟨"call_1", "split_pdf", Json.str "r1"⟩,
      ⟨"call_2", "move_pages", Json.str "r2"⟩] ∧
    (parseAnthropicBlocks (assistantContentBlocks asstTwoCalls)).2 =
      [⟨"call_1", "split_pdf", Json.str "r1"⟩,
        ⟨"call_2", "move_pages", Json.str "r2"⟩] :=
  ⟨rfl, rfl,
    (C8_tool_calls_roundtrip asstTwoCalls
      [⟨"call_1", "split_pdf", Json.str "r1"⟩,
        ⟨"call_2", "move_pages", Json.str "r2"⟩]
      rfl rfl (by simp)).2.1⟩

/-! ### Claims C4-C6: agent loop -/

/-- Processing a round's tool calls only appends to the message list. -/
theorem processToolCalls_messages (exec : LLMToolCall → Except String ToolOutput)
    (tcs : List LLMToolCall) (st : AgentState) :
    ∃ l, (processToolCalls exec tcs st).messages = st.messages ++ l := by
  induction tcs generalizing st with
  | nil => exact ⟨[], by simp [processToolCalls]⟩
  | cons tc rest ih =>
    cases he : exec tc with
    | ok out =>
      obtain ⟨l, hl⟩ := ih
        { st with
          documents := st.documents ++ newDocuments tc.name out
          messages := st.messages ++ [toolResultMessage tc out]
          operations := st.operations ++ [⟨tc.name, tc.input, OpResult.ok out⟩] }
      exact ⟨toolResultMessage tc out :: l, by
        simp only [processToolCalls, he]
        rw [hl]
        simp⟩
    | error e =>
      obtain ⟨l, hl⟩ := ih
        { st with
          messages := st.messages ++ [toolErrorMessage tc e]
          operations := st.operations ++ [⟨tc.name, tc.input, OpResult.err e⟩] }
      exact ⟨toolErrorMessage tc e :: l, by
        simp only [processToolCalls, he]
        rw [hl]
        simp⟩

/-- Processing a round's tool calls only appends to the operations list. -/
theorem processToolCalls_operations (exec : LLMToolCall → Except String ToolOutput)
    (tcs : List LLMToolCall) (st : AgentState) :
    ∃ l, (processToolCalls exec tcs st).operations = st.operations ++ l := by
  induction tcs generalizing st with
  | nil => exact ⟨[], by simp [processToolCalls]⟩
  | cons tc rest ih =>
    cases he : exec tc with
    | ok out =>
      obtain ⟨l, hl⟩ := ih
        { st with
          documents := st.documents ++ newDocuments tc.name out
          messages := st.messages ++ [toolResultMessage tc out]
          operations := st.operations ++ [⟨tc.name, tc.input, OpResult.ok out⟩] }
      exact ⟨⟨tc.name, tc.input, OpResult.ok out⟩ :: l, by
        simp only [processToolCalls, he]
        rw [hl]
        simp⟩
    | error e =>
      obtain ⟨l, hl⟩ := ih
        { st with
          messages := st.messages ++ [toolErrorMessage tc e]
          operations := st.operations ++ [⟨tc.name, tc.input, OpResult.err e⟩] }
      exact ⟨⟨tc.name, tc.input, OpResult.err e⟩ :: l, by
        simp only [processToolCalls, he]
        rw [hl]
        simp⟩

/-- Processing a round's tool calls never touches the iteration counter,
the loop flag or the final response. -/
theorem processToolCalls_control (exec : LLMToolCall → Except String ToolOutput)
    (tcs : List LLMToolCall) (st : AgentState) :
    (processToolCalls exec tcs st).iteration = st.iteration ∧
    (processToolCalls exec tcs st).continueLoop = st.continueLoop ∧
    (processToolCalls exec tcs st).finalResponse = st.finalResponse := by
  induction tcs generalizing st with
  | nil => exact ⟨rfl, rfl, rfl⟩
  | cons tc rest ih =>
    cases he : exec tc with
    | ok out =>
      simpa only [processToolCalls, he] using ih _
    | error e =>
      simpa only [processToolCalls, he] using ih _

/-- A throwing tool call leaves its failed operations entry and its error
tool-role message in the state produced by the round. -/
theorem processToolCalls_error_mem (exec : LLMToolCall → Except String ToolOutput)
    (tcs : List LLMToolCall) (st : AgentState) (tc : LLMToolCall) (e : String)
    (htc : tc ∈ tcs) (he : exec tc = Except.error e) :
    (⟨tc.name, tc.input, OpResult.err e⟩ : Operation) ∈
      (processToolCalls exec tcs st).operations ∧
    toolErrorMessage tc e ∈ (processToolCalls exec tcs st).messages := by
  induction tcs generalizing st with
  | nil => cases htc
  | cons hd rest ih =>
    rcases List.mem_cons.mp htc with hEq | hMem
    · subst hEq
      simp only [processToolCalls, he]
      set st1 : AgentState :=
        { st with
          messages := st.messages ++ [toolErrorMessage tc e]
          operations := st.operations ++ [⟨tc.name, tc.input, OpResult.err e⟩] }
        with hst1
      constructor
      · obtain ⟨l, hl⟩ := processToolCalls_operations exec rest st1
        rw [hl, hst1]
        simp
      · obtain ⟨l, hl⟩ := processToolCalls_messages exec rest st1
        rw [hl, hst1]
        simp
    · cases hexec : exec hd with
      | ok out =>
        simp only [processToolCalls, hexec]
        exact ih _ hMem
      | error e2 =>
        simp only [processToolCalls, hexec]
        exact ih _ hMem

/-- Unfolding one pass of the loop when it continues. -/
theorem runLoop_step (script : ℕ → Except String LLMResponse)
    (exec : LLMToolCall → Except String ToolOutput) (fuel : ℕ)
    (st : AgentState) (h : st.continueLoop = true)
    (h2 : st.iteration < maxIterations) :
    runLoop script exec (fuel + 1) st =
      runLoop script exec fuel (stepAgent script exec st) := by
  simp [runLoop, h, h2]

/-- The loop returns the state unchanged once `continueLoop` is false. -/
theorem runLoop_stop (script : ℕ → Except String LLMResponse)
    (exec : LLMToolCall → Except String ToolOutput) (fuel : ℕ)
    (st : AgentState) (h : st.continueLoop = false) :
    runLoop script exec fuel st = st := by
  cases fuel with
  | zero => rfl
  | succ n => simp [runLoop, h]

/-- A pass whose provider round issues tool calls: the state keeps
looping, the iteration advances by one, and the final response is
untouched. -/
theorem stepAgent_toolRound (script : ℕ → Except String LLMResponse)
    (exec : LLMToolCall → Except String ToolOutput) (st : AgentState)
    (hok : OkToolCallsRound (script (st.iteration + 1))) :
    (stepAgent script exec st).iteration = st.iteration + 1 ∧
    (stepAgent script exec st).continueLoop = st.continueLoop ∧
    (stepAgent script exec st).finalResponse = st.finalResponse := by
  obtain ⟨resp, hresp, hlen⟩ := hok
  have hcond : (resp.toolCalls.getD []).length > 0 := hlen
  simp only [stepAgent, hresp, hcond, if_pos]
  have := processToolCalls_control exec (resp.toolCalls.getD [])
    { st with
      iteration := st.iteration + 1
      messages := st.messages ++
        [assistantWithCalls resp.content (resp.toolCalls.getD [])] }
  simpa using this

/-- Loop invariant for the ceiling: while every provider round issues tool
calls, the loop keeps going and the iteration counter reaches exactly the
ceiling. -/
theorem runLoop_allToolRounds (script : ℕ → Except String LLMResponse)
    (exec : LLMToolCall → Except String ToolOutput)
    (h : ∀ r, 1 ≤ r → r ≤ maxIterations → OkToolCallsRound (script r)) :
    ∀ (n : ℕ) (st : AgentState), st.continueLoop = true →
      st.iteration + n = maxIterations →
      (runLoop script exec n st).iteration = maxIterations := by
  intro n
  induction n with
  | zero =>
    intro st _ hiter
    simpa [runLoop] using hiter
  | succ k ih =>
    intro st hcont hiter
    have hlt : st.iteration < maxIterations := by omega
    rw [runLoop_step script exec k st hcont hlt]
    have hok : OkToolCallsRound (script (st.iteration + 1)) :=
      h (st.iteration + 1) (by omega) (by omega)
    obtain ⟨hit, hcl, _⟩ := stepAgent_toolRound script exec st hok
    exact ih (stepAgent script exec st) (by rw [hcl, hcont]) (by omega)

/-- Claim C5.  A scripted provider that issues at least one tool call on
every round within the ceiling drives `runPdfAgent` through exactly
`maxIterations = 20` rounds (the iteration counter, incremented once per
provider call, ends at 20) and the turn returns the canned
reached-the-limit response; the loop never runs past the ceiling. -/
theorem C5_iteration_ceiling (script : ℕ → Except String LLMResponse)
    (exec : LLMToolCall → Except String ToolOutput) (userMessage : String)
    (documents : List Document) (history : List HistoryMessage)
    (h : ∀ r, 1 ≤ r → r ≤ maxIterations → OkToolCallsRound (script r)) :
    (runPdfAgentState script exec userMessage documents history).iteration =
      maxIterations ∧
    (runPdfAgent script exec userMessage documents history).response =
      limitResponse := by
  have hiter :
      (runPdfAgentState script exec userMessage documents history).iteration =
        maxIterations :=
    runLoop_allToolRounds script exec h maxIterations _ rfl rfl
  refine ⟨hiter, ?_⟩
  have hne : ¬(limitResponse = "") := by decide
  simp [runPdfAgent, hiter, hne]

/-- Claim C5, witness at the concrete always-tool-calling stub. -/
theorem C5_iteration_ceiling_witness :
    (∀ r, 1 ≤ r → r ≤ maxIterations → OkToolCallsRound (alwaysToolScript r)) ∧
    (runPdfAgent alwaysToolScript okExec "loop forever" [] []).response =
      limitResponse :=
  ⟨fun _ _ _ => ⟨_, rfl, by decide⟩,
    (C5_iteration_ceiling alwaysToolScript okExec "loop forever" [] []
      (fun _ _ _ => ⟨_, rfl, by decide⟩)).2⟩

/-- Loop invariant for a final answer arriving at round `k`: tool-call
rounds run until round `k` is reached, whose reply text becomes the final
response, appended as a plain assistant message, with the loop stopping at
iteration `k`. -/
theorem runLoop_finalRound (script : ℕ → Except String LLMResponse)
    (exec : LLMToolCall → Except String ToolOutput) (k : ℕ)
    (resp : LLMResponse) (hfin : script k = Except.ok resp)
    (hnc : resp.toolCalls.getD [] = []) :
    ∀ (n : ℕ) (st : AgentState), st.continueLoop = true →
      st.iteration + n = maxIterations → st.iteration < k →
      k ≤ maxIterations →
      (∀ r, st.iteration < r → r < k → OkToolCallsRound (script r)) →
      (runLoop script exec n st).iteration = k ∧
      (runLoop script exec n st).finalResponse = resp.content ∧
      (runLoop script exec n st).messages.getLast? =
        some (plainAssistant resp.content) := by
  intro n
  induction n with
  | zero =>
    intro st _ hiter hk _ _
    omega
  | succ m ih =>
    intro st hcont hiter hk hkmax hpre
    have hlt : st.iteration < maxIterations := by omega
    rw [runLoop_step script exec m st hcont hlt]
    by_cases hhit : st.iteration + 1 = k
    · have hstep : stepAgent script exec st =
          { st with
            iteration := st.iteration + 1
            messages := st.messages ++ [plainAssistant resp.content]
            finalResponse := resp.content
            continueLoop := false } := by
        simp only [stepAgent, hhit, hfin, hnc]
        rfl
      rw [hstep, runLoop_stop script exec m _ rfl]
      refine ⟨by simpa using hhit, rfl, ?_⟩
      simp [plainAssistant]
    · have hok : OkToolCallsRound (script (st.iteration + 1)) :=
        hpre (st.iteration + 1) (by omega) (by omega)
      obtain ⟨hit, hcl, _⟩ := stepAgent_toolRound script exec st hok
      have := ih (stepAgent script exec st) (by rw [hcl, hcont]) (by omega)
        (by omega) hkmax
        (fun r hr1 hr2 => hpre r (by omega) hr2)
      exact this
  
/-- Claim C4, amended.  If the scripted provider's reply at some round `k`
strictly before the iteration ceiling carries no tool calls and nonempty
text, `runPdfAgent` appends that text as a plain assistant message (it is
the last message of the turn) and returns exactly that text.  (The claim
as frozen also covers round 20 and empty text; at round 20 the text is
overwritten by the canned limit response — see the counterexample — and
an empty text is replaced by a generic completion message.) -/
theorem C4_final_answer_before_ceiling (script : ℕ → Except String LLMResponse)
    (exec : LLMToolCall → Except String ToolOutput) (userMessage : String)
    (documents : List Document) (history : List HistoryMessage) (k : ℕ)
    (resp : LLMResponse)
    (hk1 : 1 ≤ k) (hk : k < maxIterations)
    (hpre : ∀ r, 1 ≤ r → r < k → OkToolCallsRound (script r))
    (hfin : script k = Except.ok resp)
    (hnc : resp.toolCalls.getD [] = [])
    (hcne : resp.content ≠ "") :
    (runPdfAgentState script exec userMessage documents history).messages.getLast?
      = some (plainAssistant resp.content) ∧
    (runPdfAgent script exec userMessage documents history).response =
      resp.content := by
  have hrun := runLoop_finalRound script exec k resp hfin hnc maxIterations
    { messages := initMessages userMessage documents history
      operations := []
      documents := documents
      finalResponse := ""
      continueLoop := true
      iteration := 0 }
    rfl rfl (by simpa using hk1) (by omega)
    (fun r hr1 hr2 => hpre r (by simpa using hr1) hr2)
  obtain ⟨hit, hfr, hlast⟩ := hrun
  have hit2 : ¬(maxIterations ≤
      (runPdfAgentState script exec userMessage documents history).iteration) := by
    rw [show (runPdfAgentState script exec userMessage documents history).iteration
      = k from hit]
    omega
  refine ⟨hlast, ?_⟩
  simp only [runPdfAgent, hit2, if_neg, not_false_iff]
  rw [show (runPdfAgentState script exec userMessage documents history).finalResponse
    = resp.content from hfr]
  simp [hcne]

/-- Claim C4, witness for the amended theorem: a no-tool-call reply on
round 1 with text `"All done."` is appended as a plain assistant message
and returned verbatim. -/
theorem C4_final_answer_before_ceiling_witness :
    (1 : ℕ) ≤ 1 ∧ (1 : ℕ) < maxIterations ∧
    (runPdfAgent immediateAnswerScript okExec "hello" [] []).response =
      "All done." :=
  ⟨le_refl 1, by decide,
    (C4_final_answer_before_ceiling immediateAnswerScript okExec "hello" [] []
      1 { content := "All done.", stopReason := "end_turn" }
      (le_refl 1) (by decide) (fun r h1 h2 => absurd (lt_of_le_of_lt h1 h2)
        (lt_irrefl 1)) rfl rfl (by decide)).2⟩

/-- Claim C4, counterexample.  The reply on round 20 — a round within the
iteration ceiling — carries no tool calls and the text `"DONE"`, yet the
turn's response is the canned limit message, not that text: the
post-loop `iteration >= maxIterations` check overwrites a final answer
that arrives exactly at the ceiling. -/
theorem C4_round20_answer_discarded :
    lateAnswerScript 20 =
      Except.ok { content := "DONE", stopReason := "end_turn" } ∧
    (runPdfAgent lateAnswerScript okExec "do it" [] []).response =
      limitResponse ∧
    limitResponse ≠ "DONE" := by
  refine ⟨rfl, ?_, by decide⟩
  rfl

/-- Claim C6.  If some tool call of the first round throws while the
second round returns a final answer, the turn still completes: the
operations list records the failing tool with a `success:false` error
result, the error ToolResult is fed back to the model as a tool-role
message, and the loop continues to the final answer instead of aborting
the turn. -/
theorem C6_tool_throw_contained (script : ℕ → Except String LLMResponse)
    (exec : LLMToolCall → Except String ToolOutput) (userMessage : String)
    (documents : List Document) (history : List HistoryMessage)
    (resp1 resp2 : LLMResponse) (tcs : List LLMToolCall) (tc : LLMToolCall)
    (e : String)
    (h1 : script 1 = Except.ok resp1)
    (hcalls : resp1.toolCalls = some tcs) (hne : tcs ≠ [])
    (htc : tc ∈ tcs) (he : exec tc = Except.error e)
    (h2 : script 2 = Except.ok resp2)
    (hnc : resp2.toolCalls.getD [] = [])
    (hc2 : resp2.content ≠ "") :
    (runPdfAgent script exec userMessage documents history).response =
      resp2.content ∧
    (⟨tc.name, tc.input, OpResult.err e⟩ : Operation) ∈
      (runPdfAgent script exec userMessage documents history).operations ∧
    toolErrorMessage tc e ∈
      (runPdfAgentState script exec userMessage documents history).messages ∧
    (⟨tc.name, tc.input, OpResult.err e⟩ : Operation).result.success = false := by
  have hlen : 0 < tcs.length := List.length_pos.mpr hne
  set st0 : AgentState :=
    { messages := initMessages userMessage documents history
      operations := []
      documents := documents
      finalResponse := ""
      continueLoop := true
      iteration := 0 } with hst0
  set stA : AgentState :=
    { st0 with
      iteration := 1
      messages := st0.messages ++ [assistantWithCalls resp1.content tcs] }
    with hstA
  have hstep1 : stepAgent script exec st0 = processToolCalls exec tcs stA := by
    simp only [stepAgent, hst0, h1, hcalls, Option.getD_some]
    rw [if_pos hlen]
  have hmem := processToolCalls_error_mem exec tcs stA tc e htc he
  obtain ⟨hit1, hcl1, hfr1⟩ := processToolCalls_control exec tcs stA
  set st1 : AgentState := processToolCalls exec tcs stA with hst1
  have hcl1' : st1.continueLoop = true := by
    rw [hst1, hcl1, hstA]
  have hit1' : st1.iteration = 1 := by rw [hst1, hit1]
  have hstep2 : stepAgent script exec st1 =
      { st1 with
        iteration := 2
        messages := st1.messages ++ [plainAssistant resp2.content]
        finalResponse := resp2.content
        continueLoop := false } := by
    simp only [stepAgent, hit1', h2, hnc]
    rfl
  set st2 : AgentState :=
    { st1 with
      iteration := 2
      messages := st1.messages ++ [plainAssistant resp2.content]
      finalResponse := resp2.content
      continueLoop := false } with hst2
  have hrun : runPdfAgentState script exec userMessage documents history = st2 := by
    show runLoop script exec maxIterations st0 = st2
    rw [show (maxIterations : ℕ) = 19 + 1 from rfl,
      runLoop_step script exec 19 st0 (by rw [hst0]) (by
        rw [hst0]
        show (0 : ℕ) < maxIterations
        decide),
      hstep1,
      show (19 : ℕ) = 18 + 1 from rfl,
      runLoop_step script exec 18 st1 hcl1' (by
        rw [hit1']
        decide),
      hstep2,
      runLoop_stop script exec 18 st2 (by rw [hst2])]
  have hit2eq :
      (runPdfAgentState script exec userMessage documents history).iteration = 2 := by
    rw [hrun, hst2]
  have hfr2eq :
      (runPdfAgentState script exec userMessage documents history).finalResponse =
        resp2.content := by
    rw [hrun, hst2]
  refine ⟨?_, ?_, ?_, rfl⟩
  · have hit2 : ¬(maxIterations ≤
        (runPdfAgentState script exec userMessage documents history).iteration) := by
      rw [hit2eq]
      decide
    simp only [runPdfAgent, hit2, if_neg, not_false_iff]
    rw [hfr2eq]
    simp [hc2]
  · show (⟨tc.name, tc.input, OpResult.err e⟩ : Operation) ∈
      (runPdfAgentState script exec userMessage documents history).operations
    rw [hrun, hst2]
    show (⟨tc.name, tc.input, OpResult.err e⟩ : Operation) ∈ st1.operations
    exact hmem.1
  · rw [hrun, hst2]
    show toolErrorMessage tc e ∈ st1.messages ++ [plainAssistant resp2.content]
    exact List.mem_append_left _ hmem.2

/-- Claim C6, witness at the concrete throwing executor. -/
theorem C6_tool_throw_contained_witness :
    throwExec badCall = Except.error "boom" ∧
    ((runPdfAgent throwingRoundScript throwExec "go" [] []).response =
        "Recovered." ∧
      (⟨badCall.name, badCall.input, OpResult.err "boom"⟩ : Operation) ∈
        (runPdfAgent throwingRoundScript throwExec "go" [] []).operations ∧
      toolErrorMessage badCall "boom" ∈
        (runPdfAgentState throwingRoundScript throwExec "go" [] []).messages ∧
      (⟨badCall.name, badCall.input, OpResult.err "boom"⟩ :
        Operation).result.success = false) :=
  ⟨rfl,
    C6_tool_throw_contained throwingRoundScript throwExec "go" [] []
      { content := "", toolCalls := some [badCall], stopReason := "tool_use" }
      { content := "Recovered.", stopReason := "end_turn" }
      [badCall] badCall "boom" rfl rfl (by simp)
      (List.mem_cons_self _ _) rfl rfl rfl (by decide)⟩

/-! ### Claims C9-C10: whitespace search -/

/-- The integral table equals the double sum of the binary clear
classification over the dominated rectangle. -/
theorem integralFun_eq_sum (data : ℕ → ℕ → ℕ) (threshold : ℕ) :
    ∀ y x, integralFun data threshold y x =
      ∑ j in Finset.range y, ∑ i in Finset.range x,
        isWhite data threshold j i := by
  intro y
  induction y with
  | zero => intro x; simp [integralFun]
  | succ y ihy =>
    intro x
    show integralRow data threshold (integralFun data threshold y) y x = _
    induction x with
    | zero => simp [integralRow]
    | succ x ihx =>
      rw [integralRow, ihx, ihy (x + 1), ihy x]
      simp only [Finset.sum_range_succ, Finset.sum_add_distrib]
      ring

/-- `regionIsClear` decides exactly the strict full-clear property: the
integral-table count of the rectangle `[x1, x2) × [y1, y2)` equals its
area iff every pixel inside it is at or above the threshold. -/
theorem regionIsClear_iff (data : ℕ → ℕ → ℕ) (threshold : ℕ)
    (x1 y1 x2 y2 : ℕ) (hx : x1 ≤ x2) (hy : y1 ≤ y2) :
    regionIsClear data threshold x1 y1 x2 y2 = true ↔
      ∀ px py, x1 ≤ px → px < x2 → y1 ≤ py → py < y2 →
        threshold ≤ data py px := by
  have hone : ∀ j i, isWhite data threshold j i ≤ 1 := by
    intro j i
    unfold isWhite
    split <;> simp
  have hrow : ∀ j, ∑ i in Finset.range x2, isWhite data threshold j i -
      ∑ i in Finset.range x1, isWhite data threshold j i =
      ∑ i in Finset.Ico x1 x2, isWhite data threshold j i := by
    intro j
    rw [Finset.sum_Ico_eq_sub _ hx]
  have hdiff : integralFun data threshold y2 x2 -
      integralFun data threshold y1 x2 -
      integralFun data threshold y2 x1 +
      integralFun data threshold y1 x1 =
      ∑ j in Finset.Ico y1 y2, ∑ i in Finset.Ico x1 x2,
        isWhite data threshold j i := by
    rw [integralFun_eq_sum, integralFun_eq_sum, integralFun_eq_sum,
      integralFun_eq_sum,
      Finset.sum_Ico_eq_sub _ hy]
    simp only [← hrow, Finset.sum_sub_distrib]
    ring
  have harea : ((x2 : ℤ) - (x1 : ℤ)) * ((y2 : ℤ) - (y1 : ℤ)) =
      ∑ j in Finset.Ico y1 y2, ∑ i in Finset.Ico x1 x2, (1 : ℤ) := by
    simp only [Finset.sum_const, Nat.card_Ico, nsmul_eq_mul, mul_one]
    rw [← Nat.cast_sub hx, ← Nat.cast_sub hy]
    push_cast [Nat.cast_sub hx, Nat.cast_sub hy]
    ring
  unfold regionIsClear
  rw [decide_eq_true_iff, hdiff, harea]
  rw [Finset.sum_eq_sum_iff_of_le (fun j _ =>
    Finset.sum_le_sum (fun i _ => hone j i))]
  constructor
  · intro h px py hx1 hx2 hy1 hy2
    have hj := h py (Finset.mem_Ico.mpr ⟨hy1, hy2⟩)
    rw [Finset.sum_eq_sum_iff_of_le (fun i _ => hone py i)] at hj
    have hi := hj px (Finset.mem_Ico.mpr ⟨hx1, hx2⟩)
    unfold isWhite at hi
    by_contra hcon
    rw [if_neg hcon] at hi
    exact absurd hi (by decide)
  · intro h j hj
    rw [Finset.sum_eq_sum_iff_of_le (fun i _ => hone j i)]
    intro i hi
    have := h i j (Finset.mem_Ico.mp hi).1 (Finset.mem_Ico.mp hi).2
      (Finset.mem_Ico.mp hj).1 (Finset.mem_Ico.mp hj).2
    unfold isWhite
    rw [if_pos this]

/-- Every candidate produced by the scan passed the full-clear test for
its window. -/
theorem scanCandidates_clear (data : ℕ → ℕ → ℕ)
    (width height minWidthPx minHeightPx marginPx threshold : ℕ)
    (prefer : Prefer) (c : Candidate)
    (hc : c ∈ scanCandidates data width height minWidthPx minHeightPx
      marginPx threshold prefer) :
    regionIsClear data threshold c.x c.y (c.x + minWidthPx)
      (c.y + minHeightPx) = true := by
  unfold scanCandidates at hc
  rw [List.mem_flatMap] at hc
  obtain ⟨y, _, hy⟩ := hc
  rw [List.mem_filterMap] at hy
  obtain ⟨x, _, hx⟩ := hy
  by_cases hclear : regionIsClear data threshold x y (x + minWidthPx)
      (y + minHeightPx) = true
  · rw [if_pos hclear] at hx
    cases hx
    exact hclear
  · rw [if_neg hclear] at hx
    cases hx

/-- Inserting into the descending-by-score sort is a permutation. -/
theorem insertByScore_perm (c : Candidate) (l : List Candidate) :
    List.Perm (insertByScore c l) (c :: l) := by
  induction l with
  | nil => rfl
  | cons d rest ih =>
    unfold insertByScore
    split
    · rfl
    · exact (ih.cons d).trans (List.Perm.swap c d rest)

/-- The descending sort permutes the candidate list. -/
theorem sortByScoreDesc_perm (l : List Candidate) :
    List.Perm (sortByScoreDesc l) l := by
  induction l with
  | nil => rfl
  | cons c rest ih =>
    exact (insertByScore_perm c (sortByScoreDesc rest)).trans (ih.cons c)

/-- Inserting into a descending-sorted list keeps it descending-sorted. -/
theorem insertByScore_sorted (c : Candidate) (l : List Candidate)
    (h : l.Pairwise (fun a b => b.score ≤ a.score)) :
    (insertByScore c l).Pairwise (fun a b => b.score ≤ a.score) := by
  induction l with
  | nil => simp [insertByScore]
  | cons d rest ih =>
    rw [List.pairwise_cons] at h
    unfold insertByScore
    split
    · rename_i hlt
      rw [List.pairwise_cons]
      refine ⟨?_, List.pairwise_cons.mpr h⟩
      intro b hb
      rcases List.mem_cons.mp hb with rfl | hbr
      · exact le_of_lt hlt
      · exact le_trans (h.1 b hbr) (le_of_lt hlt)
    · rename_i hge
      rw [List.pairwise_cons]
      refine ⟨?_, ih h.2⟩
      intro b hb
      have hb' := (insertByScore_perm c rest).mem_iff.mp hb
      rcases List.mem_cons.mp hb' with rfl | hbr
      · exact le_of_not_lt hge
      · exact h.1 b hbr

/-- The result of the descending sort is descending-sorted. -/
theorem sortByScoreDesc_sorted (l : List Candidate) :
    (sortByScoreDesc l).Pairwise (fun a b => b.score ≤ a.score) := by
  induction l with
  | nil => simp [sortByScoreDesc]
  | cons c rest ih => exact insertByScore_sorted c (sortByScoreDesc rest) ih

/-- Length of the ranked-region list. -/
theorem rankRegions_length (height minHeightPx dpi : ℕ)
    (widthInches heightInches : ℚ) :
    ∀ (rank : ℕ) (l : List Candidate),
      (rankRegions height minHeightPx dpi widthInches heightInches rank
        l).length = l.length := by
  intro rank l
  induction l generalizing rank with
  | nil => rfl
  | cons c rest ih => simp [rankRegions, ih]

/-- Every ranked region comes from a candidate of the underlying list. -/
theorem rankRegions_mem (height minHeightPx dpi : ℕ)
    (widthInches heightInches : ℚ) (r : WRegion) :
    ∀ (rank : ℕ) (l : List Candidate),
      r ∈ rankRegions height minHeightPx dpi widthInches heightInches rank l →
      ∃ c ∈ l, ∃ k, r = mkRegion height minHeightPx dpi widthInches
        heightInches k c := by
  intro rank l
  induction l generalizing rank with
  | nil => intro h; cases h
  | cons c rest ih =>
    intro h
    rcases List.mem_cons.mp h with rfl | hr
    · exact ⟨c, List.mem_cons_self _ _, rank, rfl⟩
    · obtain ⟨d, hd, k, hk⟩ := ih (rank + 1) hr
      exact ⟨d, List.mem_cons_of_mem _ hd, k, hk⟩

/-- Claim C9.  Every region returned by the whitespace search is fully
clear: undoing the documented vertical flip
(`y_raster = height - y_doc_px - rect_height_px`, with `y_doc_px =
yInches * dpi` and `x_raster = xInches * dpi`) recovers a raster window of
`minWidthPx × minHeightPx` pixels in which every pixel is at or above the
brightness threshold — a strict full-clear rectangle, not a statistical
approximation. -/
theorem C9_regions_fully_clear (data : ℕ → ℕ → ℕ)
    (width height minWidthPx minHeightPx marginPx threshold dpi : ℕ)
    (widthInches heightInches : ℚ) (prefer : Prefer)
    (hdpi : 0 < dpi) (r : WRegion)
    (hr : r ∈ (findWhitespaceCore data width height minWidthPx minHeightPx
      marginPx threshold dpi widthInches heightInches prefer).regions)
    (px py : ℕ)
    (hx1 : r.xInches * (dpi : ℚ) ≤ (px : ℚ))
    (hx2 : (px : ℚ) < r.xInches * (dpi : ℚ) + (minWidthPx : ℚ))
    (hy1 : (height : ℚ) - r.yInches * (dpi : ℚ) - (minHeightPx : ℚ) ≤ (py : ℚ))
    (hy2 : (py : ℚ) < ((height : ℚ) - r.yInches * (dpi : ℚ) -
      (minHeightPx : ℚ)) + (minHeightPx : ℚ)) :
    threshold ≤ data py px := by
  simp only [findWhitespaceCore] at hr
  obtain ⟨c, hc5, k, rfl⟩ := rankRegions_mem height minHeightPx dpi
    widthInches heightInches r 1 _ hr
  have hcands : c ∈ scanCandidates data width height minWidthPx minHeightPx
      marginPx threshold prefer :=
    (sortByScoreDesc_perm _).subset (List.take_subset _ _ hc5)
  have hclear := scanCandidates_clear data width height minWidthPx
    minHeightPx marginPx threshold prefer c hcands
  have hdq : (dpi : ℚ) ≠ 0 := Nat.cast_ne_zero.mpr hdpi.ne'
  have hxe : (mkRegion height minHeightPx dpi widthInches heightInches
      k c).xInches * (dpi : ℚ) = (c.x : ℚ) := by
    simp only [mkRegion]
    field_simp
  have hye : (height : ℚ) - (mkRegion height minHeightPx dpi widthInches
      heightInches k c).yInches * (dpi : ℚ) - (minHeightPx : ℚ) =
      (c.y : ℚ) := by
    simp only [mkRegion]
    field_simp
    ring
  rw [hxe] at hx1 hx2
  rw [hye] at hy1 hy2
  have hx1' : c.x ≤ px := by exact_mod_cast hx1
  have hx2' : px < c.x + minWidthPx := by exact_mod_cast hx2
  have hy1' : c.y ≤ py := by exact_mod_cast hy1
  have hy2' : py < c.y + minHeightPx := by exact_mod_cast hy2
  exact (regionIsClear_iff data threshold c.x c.y (c.x + minWidthPx)
    (c.y + minHeightPx) (Nat.le_add_right _ _) (Nat.le_add_right _ _)).mp
    hclear px py hx1' hx2' hy1' hy2'

/-- Claim C10.  The whitespace search returns at most 5 regions (exactly
`min 5 candidates` many), reports the total number of scanned candidates
separately in `candidatesFound`, and the returned regions are the top 5
of a descending-by-score rearrangement of the candidate list, ranked in
that order starting at 1. -/
theorem C10_top_five_regions (data : ℕ → ℕ → ℕ)
    (width height minWidthPx minHeightPx marginPx threshold dpi : ℕ)
    (widthInches heightInches : ℚ) (prefer : Prefer) :
    (findWhitespaceCore data width height minWidthPx minHeightPx marginPx
      threshold dpi widthInches heightInches prefer).regions.length ≤ 5 ∧
    (findWhitespaceCore data width height minWidthPx minHeightPx marginPx
      threshold dpi widthInches heightInches prefer).regions.length =
      min 5 (scanCandidates data width height minWidthPx minHeightPx
        marginPx threshold prefer).length ∧
    (findWhitespaceCore data width height minWidthPx minHeightPx marginPx
      threshold dpi widthInches heightInches prefer).candidatesFound =
      (scanCandidates data width height minWidthPx minHeightPx marginPx
        threshold prefer).length ∧
    ∃ l, List.Perm (scanCandidates data width height minWidthPx minHeightPx
        marginPx threshold prefer) l ∧
      l.Pairwise (fun a b => b.score ≤ a.score) ∧
      (findWhitespaceCore data width height minWidthPx minHeightPx marginPx
        threshold dpi widthInches heightInches prefer).regions =
        rankRegions height minHeightPx dpi widthInches heightInches 1
          (l.take 5) := by
  have hlen : (findWhitespaceCore data width height minWidthPx minHeightPx
      marginPx threshold dpi widthInches heightInches prefer).regions.length =
      min 5 (scanCandidates data width height minWidthPx minHeightPx
        marginPx threshold prefer).length := by
    simp only [findWhitespaceCore, rankRegions_length, List.length_take]
    rw [(sortByScoreDesc_perm _).length_eq]
  refine ⟨by rw [hlen]; exact min_le_left _ _, hlen, rfl,
    sortByScoreDesc (scanCandidates data width height minWidthPx minHeightPx
      marginPx threshold prefer),
    (sortByScoreDesc_perm _).symm, sortByScoreDesc_sorted _, rfl⟩

/-- The concrete region list computed by the whitespace core on the
all-white 4×4 raster of the C9 witness. -/
theorem allWhiteRaster_regions :
    (findWhitespaceCore allWhiteRaster 4 4 1 1 1 250 1 1 1
      Prefer.any).regions =
      [mkRegion 4 1 1 1 1 1 ⟨2, 2, 0⟩, mkRegion 4 1 1 1 1 2 ⟨1, 2, 0⟩,
        mkRegion 4 1 1 1 1 3 ⟨2, 1, 0⟩, mkRegion 4 1 1 1 1 4 ⟨1, 1, 0⟩] := by
  rfl

/-- Claim C9, witness: on a concrete all-white 4×4 raster the top-ranked
returned region maps back to a raster window whose pixels are all at or
above the threshold; the theorem is applied at pixel (2, 2). -/
theorem C9_regions_fully_clear_witness :
    (0 : ℕ) < 1 ∧
    mkRegion 4 1 1 1 1 1 ⟨2, 2, 0⟩ ∈
      (findWhitespaceCore allWhiteRaster 4 4 1 1 1 250 1 1 1
        Prefer.any).regions ∧
    ((mkRegion 4 1 1 1 1 1 ⟨2, 2, 0⟩).xInches * ((1 : ℕ) : ℚ) ≤
      ((2 : ℕ) : ℚ)) ∧
    (250 : ℕ) ≤ allWhiteRaster 2 2 :=
  ⟨Nat.one_pos,
    by rw [allWhiteRaster_regions]; exact List.mem_cons_self _ _,
    by norm_num [mkRegion],
    C9_regions_fully_clear allWhiteRaster 4 4 1 1 1 250 1 1 1
      Prefer.any Nat.one_pos (mkRegion 4 1 1 1 1 1 ⟨2, 2, 0⟩)
      (by rw [allWhiteRaster_regions]; exact List.mem_cons_self _ _)
      2 2 (by norm_num [mkRegion]) (by norm_num [mkRegion])
      (by norm_num [mkRegion]) (by norm_num [mkRegion])⟩
